import Mathlib

/-!
Shallow embedding of `src/cache.py` (libcommon/cache-py).

A Python `dict` / `OrderedDict` is modelled as an association list
`List (K × Option V)` whose order is the dict's insertion order (Python 3.7+
dicts and `OrderedDict` both iterate in insertion order).  Values have type
`Option V` because every cache method takes `value: Optional[U]` and absence
is reported as `None`; the model therefore distinguishes a stored `None`
(`(k, none)` present in the list) from an absent key.  A Python `set` is
modelled as a `List K` (duplicates never arise because `set.add` is a no-op
on a present element; none of the properties below depend on set order).

Keys in a Python dict are unique, so reachable stores have `Nodup` key lists;
lemmas that need this take it as a hypothesis.
-/

set_option autoImplicit false
set_option linter.unusedSectionVars false

namespace CachePy

variable {K V : Type} [DecidableEq K]

/-- The backing store of `HashmapCache` and its subclasses: key/value pairs in
insertion order. -/
abbrev Store (K V : Type) := List (K × Option V)

/-- The keys of a store, in order. -/
def keys (s : Store K V) : List K := s.map Prod.fst

namespace HashmapCache

/-- `HashmapCache.check`: `key in self._store`. -/
def check : Store K V → K → Bool
  | [], _ => false
  | (k', _) :: rest, k => if k' = k then true else check rest k

/-- Python `dict.get(key)` before flattening: `some v` when `key` maps to `v`
(itself an `Option V`), `none` when the key is absent. -/
def lookup : Store K V → K → Option (Option V)
  | [], _ => none
  | (k', v) :: rest, k => if k' = k then some v else lookup rest k

/-- `HashmapCache.get`: `self._store.get(key)`.  Python returns the stored
value or `None`; both collapse into one `Option V`. -/
def get (s : Store K V) (k : K) : Option V :=
  match lookup s k with
  | some v => v
  | none => none

/-- `HashmapCache.insert`: `self._store[key] = value`.  Dict assignment
overwrites in place when the key is present (keeping its position and the
original key object) and appends at the end when it is new. -/
def insert : Store K V → K → Option V → Store K V
  | [], k, v => [(k, v)]
  | (k', v') :: rest, k, v =>
      if k' = k then (k', v) :: rest else (k', v') :: insert rest k v

/-- `del self._store[key]`: remove the (unique) binding of `key`. -/
def eraseKey : Store K V → K → Store K V
  | [], _ => []
  | (k', v') :: rest, k => if k' = k then rest else (k', v') :: eraseKey rest k

/-- `HashmapCache.remove`: returns the prior value and the new store. -/
def remove (s : Store K V) (k : K) : Option V × Store K V :=
  if check s k then (get s k, eraseKey s k) else (none, s)

/-- `HashmapCache.clear`: `self._store.clear()`. -/
def clear (_ : Store K V) : Store K V := ([] : Store K V)

/-- `HashmapCache.iter`: yields `self._store.items()` in store order. -/
def iter (s : Store K V) : List (K × Option V) := s

end HashmapCache

namespace HashsetCache

/-- `HashsetCache.check`: `key in self._store`. -/
def check (s : List K) (k : K) : Bool := s.any (fun x => x = k)

/-- `HashsetCache.clear`: `self._store.clear()`. -/
def clear (_ : List K) : List K := ([] : List K)

/-- `HashsetCache.iter`: yields the elements of the set. -/
def iter (s : List K) : List K := s

end HashsetCache

namespace SizedHashmapCache

/-- `SizedHashmapCache.__init__`: `limit <= 0` raises
`ValueError("Limit must be greater than 0")` (the spec's
`InvalidConfiguration`), so no instance is produced; otherwise the instance
carries the limit and the (optionally seeded) store. -/
def init (limit : Int) (store : Store K V) : Except String (Int × Store K V) :=
  if limit ≤ 0 then Except.error "Limit must be greater than 0"
  else Except.ok (limit, store)

/-- `SizedHashmapCache.insert`: when `len(self._store) == self.limit`,
`popitem(last=False)` drops the oldest entry (the list head — on reachable
states `limit ≥ 1`, so the store is then nonempty and `tail` is exact), then
dict assignment inserts/overwrites.  Note the eviction test does NOT check
whether `key` is already present. -/
def insert (limit : Int) (k : K) (v : Option V) (s : Store K V) : Store K V :=
  HashmapCache.insert (if (s.length : Int) = limit then s.tail else s) k v

end SizedHashmapCache

namespace SizedLRUCache

/-- `SizedLRUCache.__init__` is inherited unchanged from
`SizedHashmapCache.__init__`. -/
def init (limit : Int) (store : Store K V) : Except String (Int × Store K V) :=
  SizedHashmapCache.init limit store

/-- `OrderedDict.move_to_end(key)`: move the present key to the newest end,
keeping its value.  (Python raises `KeyError` on an absent key; the only call
site, `SizedLRUCache.get`, guards with `check` first.) -/
def move_to_end (s : Store K V) (k : K) : Store K V :=
  match HashmapCache.lookup s k with
  | some v => HashmapCache.eraseKey s k ++ [(k, v)]
  | none => s

/-- `SizedLRUCache.get`: on a hit, read the value, promote the key to the
newest end, and return the value; on a miss return `None` and leave the store
unchanged. -/
def get (s : Store K V) (k : K) : Option V × Store K V :=
  if HashmapCache.check s k then (HashmapCache.get s k, move_to_end s k)
  else (none, s)

/-- `HashmapCache.remove` as dispatched on a `SizedLRUCache`: `self.get`
resolves to the overriding LRU `get`, so a hit first promotes the key, then
deletes it. -/
def remove (s : Store K V) (k : K) : Option V × Store K V :=
  if HashmapCache.check s k then
    let p := get s k
    (p.1, HashmapCache.eraseKey p.2 k)
  else (none, s)

end SizedLRUCache

/-- One call against a bounded cache; used to reason about arbitrary finite
operation sequences. -/
inductive CacheOp (K V : Type) where
  | insert (k : K) (v : Option V)
  | get (k : K)
  | remove (k : K)
  | check (k : K)
  | clear

/-- Effect of one operation on a `SizedHashmapCache` store (`check` and `get`
are read-only there). -/
def sizedStep (limit : Int) (s : Store K V) : CacheOp K V → Store K V
  | CacheOp.insert k v => SizedHashmapCache.insert limit k v s
  | CacheOp.get _ => s
  | CacheOp.remove k => (HashmapCache.remove s k).2
  | CacheOp.check _ => s
  | CacheOp.clear => HashmapCache.clear s

/-- Effect of one operation on a `SizedLRUCache` store (`get` promotes,
`remove` dispatches through the LRU `get`). -/
def lruStep (limit : Int) (s : Store K V) : CacheOp K V → Store K V
  | CacheOp.insert k v => SizedHashmapCache.insert limit k v s
  | CacheOp.get k => (SizedLRUCache.get s k).2
  | CacheOp.remove k => (SizedLRUCache.remove s k).2
  | CacheOp.check _ => s
  | CacheOp.clear => HashmapCache.clear s

/-- Run a sequence of operations on a `SizedHashmapCache` store. -/
def sizedRun (limit : Int) (ops : List (CacheOp K V)) (s : Store K V) : Store K V :=
  ops.foldl (sizedStep limit) s

/-- Run a sequence of operations on a `SizedLRUCache` store. -/
def lruRun (limit : Int) (ops : List (CacheOp K V)) (s : Store K V) : Store K V :=
  ops.foldl (lruStep limit) s

/-- Effect of one operation on a plain `HashmapCache` store (`check` and
`get` are read-only; `insert` never evicts). -/
def mapStep (s : Store K V) : CacheOp K V → Store K V
  | CacheOp.insert k v => HashmapCache.insert s k v
  | CacheOp.get _ => s
  | CacheOp.remove k => (HashmapCache.remove s k).2
  | CacheOp.check _ => s
  | CacheOp.clear => HashmapCache.clear s

/-- Run a sequence of operations on a plain `HashmapCache` store. -/
def mapRun (ops : List (CacheOp K V)) (s : Store K V) : Store K V :=
  ops.foldl mapStep s

/-- An operation that does not write the key `k`: any `check` or `get`, and
`insert`/`remove` on other keys only. -/
def avoidsKey (k : K) : CacheOp K V → Bool
  | CacheOp.insert k' _ => if k' = k then false else true
  | CacheOp.get _ => true
  | CacheOp.remove k' => if k' = k then false else true
  | CacheOp.check _ => true
  | CacheOp.clear => false

/-! ### Core lemmas about the dict model -/

namespace HashmapCache

theorem check_eq_true_iff (s : Store K V) (k : K) :
    check s k = true ↔ k ∈ keys s := by
  induction s with
  | nil => simp [check, keys]
  | cons p rest ih =>
      obtain ⟨k', v'⟩ := p
      by_cases h : k' = k
      · simp [check, keys, h]
      · have h2 : ¬ k = k' := fun hk => h hk.symm
        simp [check, keys, h, h2, ih]

theorem check_eq_false_iff (s : Store K V) (k : K) :
    check s k = false ↔ k ∉ keys s := by
  rw [← check_eq_true_iff]
  cases check s k <;> simp

theorem check_append (a b : Store K V) (k : K) :
    check (a ++ b) k = (check a k || check b k) := by
  induction a with
  | nil => simp [check]
  | cons p rest ih =>
      obtain ⟨k', v'⟩ := p
      by_cases h : k' = k <;> simp [check, h, ih]

theorem lookup_isSome_eq_check (s : Store K V) (k : K) :
    (lookup s k).isSome = check s k := by
  induction s with
  | nil => simp [check, lookup]
  | cons p rest ih =>
      obtain ⟨k', v'⟩ := p
      by_cases h : k' = k <;> simp [check, lookup, h, ih]

theorem lookup_eq_none_of_check (s : Store K V) (k : K) (h : check s k = false) :
    lookup s k = none := by
  have h2 := lookup_isSome_eq_check s k
  rw [h] at h2
  cases hl : lookup s k with
  | none => rfl
  | some v => rw [hl] at h2; simp at h2

theorem get_eq_none_of_check (s : Store K V) (k : K) (h : check s k = false) :
    get s k = none := by
  simp [get, lookup_eq_none_of_check s k h]

theorem lookup_insert_self (s : Store K V) (k : K) (v : Option V) :
    lookup (insert s k v) k = some v := by
  induction s with
  | nil => simp [insert, lookup]
  | cons p rest ih =>
      obtain ⟨k', v'⟩ := p
      by_cases h : k' = k <;> simp [insert, lookup, h, ih]

theorem lookup_insert_ne (s : Store K V) (k k' : K) (v : Option V) (h : k' ≠ k) :
    lookup (insert s k v) k' = lookup s k' := by
  have h2 : ¬ k = k' := fun hk => h hk.symm
  induction s with
  | nil => simp [insert, lookup, h2]
  | cons p rest ih =>
      obtain ⟨k₀, v₀⟩ := p
      by_cases h0 : k₀ = k
      · subst h0
        have h3 : ¬ k₀ = k' := h2
        simp [insert, lookup, h3]
      · by_cases h1 : k₀ = k' <;> simp [insert, lookup, h0, h1, h, ih]

theorem get_insert_self (s : Store K V) (k : K) (v : Option V) :
    get (insert s k v) k = v := by
  simp [get, lookup_insert_self]

theorem insert_of_fresh (s : Store K V) (k : K) (v : Option V)
    (h : check s k = false) : insert s k v = s ++ [(k, v)] := by
  induction s with
  | nil => simp [insert]
  | cons p rest ih =>
      obtain ⟨k', v'⟩ := p
      by_cases h0 : k' = k
      · simp [check, h0] at h
      · simp [check, h0] at h
        simp [insert, h0, ih h]

theorem keys_insert_of_check (s : Store K V) (k : K) (v : Option V)
    (h : check s k = true) : keys (insert s k v) = keys s := by
  induction s with
  | nil => simp [check] at h
  | cons p rest ih =>
      obtain ⟨k', v'⟩ := p
      by_cases h0 : k' = k
      · simp [insert, keys, h0]
      · simp [check, h0] at h
        simp [insert, keys, h0] at ih ⊢
        exact ih h

theorem length_insert_of_check (s : Store K V) (k : K) (v : Option V)
    (h : check s k = true) : (insert s k v).length = s.length := by
  have := keys_insert_of_check s k v h
  have h1 : (keys (insert s k v)).length = (keys s).length := by rw [this]
  simpa [keys] using h1

theorem length_insert_le (s : Store K V) (k : K) (v : Option V) :
    (insert s k v).length ≤ s.length + 1 := by
  induction s with
  | nil => simp [insert]
  | cons p rest ih =>
      obtain ⟨k', v'⟩ := p
      by_cases h0 : k' = k <;> simp [insert, h0]
      omega

theorem eraseKey_of_fresh (s : Store K V) (k : K) (h : check s k = false) :
    eraseKey s k = s := by
  induction s with
  | nil => simp [eraseKey]
  | cons p rest ih =>
      obtain ⟨k', v'⟩ := p
      by_cases h0 : k' = k
      · simp [check, h0] at h
      · simp [check, h0] at h
        simp [eraseKey, h0, ih h]

theorem eraseKey_append_of_fresh (a b : Store K V) (k : K)
    (h : check a k = false) : eraseKey (a ++ b) k = a ++ eraseKey b k := by
  induction a with
  | nil => simp
  | cons p rest ih =>
      obtain ⟨k', v'⟩ := p
      by_cases h0 : k' = k
      · simp [check, h0] at h
      · simp [check, h0] at h
        simp [eraseKey, h0, ih h]

theorem check_eraseKey_of_nodup (s : Store K V) (k : K)
    (hnd : (keys s).Nodup) : check (eraseKey s k) k = false := by
  induction s with
  | nil => simp [eraseKey, check]
  | cons p rest ih =>
      obtain ⟨k', v'⟩ := p
      simp [keys] at hnd
      by_cases h0 : k' = k
      · subst h0
        rw [check_eq_false_iff]
        simpa [eraseKey, keys] using hnd.1
      · simp [eraseKey, check, h0]
        exact ih hnd.2

theorem length_eraseKey_of_check (s : Store K V) (k : K)
    (h : check s k = true) : (eraseKey s k).length + 1 = s.length := by
  induction s with
  | nil => simp [check] at h
  | cons p rest ih =>
      obtain ⟨k', v'⟩ := p
      by_cases h0 : k' = k
      · simp [eraseKey, h0]
      · simp [check, h0] at h
        have h1 := ih h
        simp [eraseKey, h0]
        omega

theorem length_eraseKey_le (s : Store K V) (k : K) :
    (eraseKey s k).length ≤ s.length := by
  induction s with
  | nil => simp [eraseKey]
  | cons p rest ih =>
      obtain ⟨k', v'⟩ := p
      by_cases h0 : k' = k
      · simp [eraseKey, h0]
      · simp [eraseKey, h0]
        omega

theorem lookup_eraseKey_ne (s : Store K V) (k k' : K) (h : k' ≠ k) :
    lookup (eraseKey s k) k' = lookup s k' := by
  have h2 : ¬ k = k' := fun hk => h hk.symm
  induction s with
  | nil => simp [eraseKey]
  | cons p rest ih =>
      obtain ⟨k₀, v₀⟩ := p
      by_cases h0 : k₀ = k
      · subst h0
        have h3 : ¬ k₀ = k' := h2
        simp [eraseKey, lookup, h3]
      · by_cases h1 : k₀ = k' <;> simp [eraseKey, lookup, h0, h1, h, ih]

theorem check_of_lookup (s : Store K V) (k : K) (v : Option V)
    (h : lookup s k = some v) : check s k = true := by
  have h2 := lookup_isSome_eq_check s k
  rw [h] at h2
  simp at h2
  exact h2

theorem length_remove_snd_le (s : Store K V) (k : K) :
    ((remove s k).2).length ≤ s.length := by
  unfold remove
  by_cases hc : check s k = true
  · simp only [hc, if_true]
    exact length_eraseKey_le s k
  · simp [hc]

end HashmapCache

/-! ### Lemmas about the bounded variants -/

namespace SizedHashmapCache

theorem length_bounded_insert_le (limit : Int) (hpos : 0 < limit) (k : K) (v : Option V)
    (s : Store K V) (h : (s.length : Int) ≤ limit) :
    ((insert limit k v s).length : Int) ≤ limit := by
  unfold insert
  by_cases hl : (s.length : Int) = limit
  · rw [if_pos hl]
    have h1 : s.tail.length + 1 = s.length := by
      cases s with
      | nil => simp at hl; omega
      | cons a t => simp
    have h2 := HashmapCache.length_insert_le s.tail k v
    omega
  · rw [if_neg hl]
    have h2 := HashmapCache.length_insert_le s k v
    omega

end SizedHashmapCache

namespace SizedLRUCache

theorem length_move_to_end (s : Store K V) (k : K) :
    (move_to_end s k).length = s.length := by
  unfold move_to_end
  cases hl : HashmapCache.lookup s k with
  | none => rfl
  | some v =>
      have hc := HashmapCache.check_of_lookup s k v hl
      have h1 := HashmapCache.length_eraseKey_of_check s k hc
      simp
      omega

theorem length_get_snd (s : Store K V) (k : K) :
    ((get s k).2).length = s.length := by
  unfold get
  by_cases hc : HashmapCache.check s k = true
  · simp [hc, length_move_to_end]
  · simp [hc]

theorem length_lru_remove_snd_le (s : Store K V) (k : K) :
    ((remove s k).2).length ≤ s.length := by
  unfold remove
  by_cases hc : HashmapCache.check s k = true
  · simp only [hc, if_true]
    have h1 := HashmapCache.length_eraseKey_le (get s k).2 k
    have h2 := length_get_snd s k
    omega
  · simp [hc]

end SizedLRUCache

/-! ### Run equations and step bounds -/

@[simp] theorem sizedRun_nil (limit : Int) (s : Store K V) :
    sizedRun limit [] s = s := rfl

@[simp] theorem sizedRun_cons (limit : Int) (op : CacheOp K V)
    (ops : List (CacheOp K V)) (s : Store K V) :
    sizedRun limit (op :: ops) s = sizedRun limit ops (sizedStep limit s op) := rfl

theorem sizedRun_append (limit : Int) (a b : List (CacheOp K V)) (s : Store K V) :
    sizedRun limit (a ++ b) s = sizedRun limit b (sizedRun limit a s) :=
  List.foldl_append _ _ _ _

@[simp] theorem lruRun_nil (limit : Int) (s : Store K V) :
    lruRun limit [] s = s := rfl

@[simp] theorem lruRun_cons (limit : Int) (op : CacheOp K V)
    (ops : List (CacheOp K V)) (s : Store K V) :
    lruRun limit (op :: ops) s = lruRun limit ops (lruStep limit s op) := rfl

theorem lruRun_append (limit : Int) (a b : List (CacheOp K V)) (s : Store K V) :
    lruRun limit (a ++ b) s = lruRun limit b (lruRun limit a s) :=
  List.foldl_append _ _ _ _

theorem sizedStep_length_le (limit : Int) (hpos : 0 < limit) (s : Store K V)
    (h : (s.length : Int) ≤ limit) (op : CacheOp K V) :
    ((sizedStep limit s op).length : Int) ≤ limit := by
  cases op with
  | insert k v => exact SizedHashmapCache.length_bounded_insert_le limit hpos k v s h
  | get k => exact h
  | remove k =>
      have h2 := HashmapCache.length_remove_snd_le s k
      simp only [sizedStep]
      omega
  | check k => exact h
  | clear =>
      simp only [sizedStep, HashmapCache.clear, List.length_nil]
      omega

theorem sizedStep_insert_fresh (limit : Int) (s : Store K V) (k : K) (v : Option V)
    (hne : (s.length : Int) ≠ limit) (hfresh : HashmapCache.check s k = false) :
    sizedStep limit s (CacheOp.insert k v) = s ++ [(k, v)] := by
  simp only [sizedStep, SizedHashmapCache.insert, if_neg hne]
  exact HashmapCache.insert_of_fresh s k v hfresh

theorem sizedRun_fill_fresh (limit : Int) (ks : List K) (f : K → Option V)
    (s : Store K V) (hfresh : ∀ k ∈ ks, HashmapCache.check s k = false)
    (hnd : ks.Nodup) (hlen : (s.length : Int) + ks.length ≤ limit) :
    sizedRun limit (ks.map fun k => CacheOp.insert k (f k)) s
      = s ++ ks.map (fun k => (k, f k)) := by
  induction ks generalizing s with
  | nil => simp
  | cons k rest ih =>
      have hlen' : (s.length : Int) + (rest.length + 1) ≤ limit := by
        simp at hlen
        omega
      have hne : (s.length : Int) ≠ limit := by omega
      have hstep := sizedStep_insert_fresh limit s k (f k) hne (hfresh k (by simp))
      rw [List.map_cons, sizedRun_cons, hstep]
      have hfresh2 : ∀ x ∈ rest, HashmapCache.check (s ++ [(k, f k)]) x = false := by
        intro x hx
        rw [HashmapCache.check_append]
        have h1 := hfresh x (by simp [hx])
        have hkx : ¬ k = x := by
          intro hk
          subst hk
          exact (List.nodup_cons.mp hnd).1 hx
        simp [h1, HashmapCache.check, hkx]
      have hnd2 := (List.nodup_cons.mp hnd).2
      have hlen2 : ((s ++ [(k, f k)]).length : Int) + rest.length ≤ limit := by
        simp
        omega
      rw [ih (s ++ [(k, f k)]) hfresh2 hnd2 hlen2]
      simp

theorem lruRun_insert_eq_sizedRun (limit : Int) (ks : List K) (f : K → Option V)
    (s : Store K V) :
    lruRun limit (ks.map fun k => CacheOp.insert k (f k)) s
      = sizedRun limit (ks.map fun k => CacheOp.insert k (f k)) s := by
  induction ks generalizing s with
  | nil => rfl
  | cons k rest ih =>
      rw [List.map_cons, lruRun_cons, sizedRun_cons]
      have h1 : lruStep limit s (CacheOp.insert k (f k))
          = sizedStep limit s (CacheOp.insert k (f k)) := rfl
      rw [h1, ih]

theorem lruStep_length_le (limit : Int) (hpos : 0 < limit) (s : Store K V)
    (h : (s.length : Int) ≤ limit) (op : CacheOp K V) :
    ((lruStep limit s op).length : Int) ≤ limit := by
  cases op with
  | insert k v => exact SizedHashmapCache.length_bounded_insert_le limit hpos k v s h
  | get k =>
      have h2 := SizedLRUCache.length_get_snd s k
      simp only [lruStep]
      omega
  | remove k =>
      have h2 := SizedLRUCache.length_lru_remove_snd_le s k
      simp only [lruStep]
      omega
  | check k => exact h
  | clear =>
      simp only [lruStep, HashmapCache.clear, List.length_nil]
      omega

end CachePy

/-! ### Stores obtained by filling with distinct fresh keys -/

namespace CachePy

variable {K V : Type} [DecidableEq K]

omit [DecidableEq K] in
theorem keys_map_pair (ks : List K) (f : K → Option V) :
    keys ((ks.map fun x => (x, f x)) : Store K V) = ks := by
  induction ks with
  | nil => rfl
  | cons k rest ih =>
      simp [keys] at ih ⊢
      exact ih

theorem check_map_pair (ks : List K) (f : K → Option V) (k : K) :
    HashmapCache.check ((ks.map fun x => (x, f x)) : Store K V) k = true ↔ k ∈ ks := by
  rw [HashmapCache.check_eq_true_iff, keys_map_pair]

theorem check_map_pair_false (ks : List K) (f : K → Option V) (k : K)
    (h : k ∉ ks) :
    HashmapCache.check ((ks.map fun x => (x, f x)) : Store K V) k = false := by
  rw [HashmapCache.check_eq_false_iff, keys_map_pair]
  exact h

theorem check_singleton (k' k : K) (v : Option V) :
    HashmapCache.check ([(k', v)] : Store K V) k = true ↔ k' = k := by
  by_cases h : k' = k <;> simp [HashmapCache.check, h]

omit [DecidableEq K] in
theorem keys_append (a b : Store K V) : keys (a ++ b) = keys a ++ keys b := by
  simp [keys]

theorem check_eq_of_keys_eq (a b : Store K V) (k : K) (h : keys a = keys b) :
    HashmapCache.check a k = HashmapCache.check b k := by
  cases hb : HashmapCache.check b k with
  | false =>
      rw [HashmapCache.check_eq_false_iff, h, ← HashmapCache.check_eq_false_iff]
      exact hb
  | true =>
      rw [HashmapCache.check_eq_true_iff, h, ← HashmapCache.check_eq_true_iff]
      exact hb

@[simp] theorem mapRun_nil (s : Store K V) : mapRun [] s = s := rfl

@[simp] theorem mapRun_cons (op : CacheOp K V) (ops : List (CacheOp K V))
    (s : Store K V) : mapRun (op :: ops) s = mapRun ops (mapStep s op) := rfl

theorem lookup_mapRun_avoids (k : K) (v : Option V) (ops : List (CacheOp K V))
    (h : ∀ op ∈ ops, avoidsKey k op = true) :
    ∀ s : Store K V, HashmapCache.lookup s k = some v →
      HashmapCache.lookup (mapRun ops s) k = some v := by
  induction ops with
  | nil => intro s hs; simpa using hs
  | cons op rest ih =>
      intro s hs
      rw [mapRun_cons]
      refine ih (fun o ho => h o (List.mem_cons_of_mem _ ho)) _ ?_
      have hop := h op (List.mem_cons_self _ _)
      cases op with
      | insert k' v' =>
          simp [avoidsKey] at hop
          rw [mapStep, HashmapCache.lookup_insert_ne s k' k v' (Ne.symm hop)]
          exact hs
      | get k' => exact hs
      | remove k' =>
          simp [avoidsKey] at hop
          simp only [mapStep, HashmapCache.remove]
          by_cases hc : HashmapCache.check s k' = true
          · simp only [hc, if_true]
            rw [HashmapCache.lookup_eraseKey_ne s k' k (Ne.symm hop)]
            exact hs
          · simp only [hc]
            simp
            exact hs
      | check k' => exact hs
      | clear => simp [avoidsKey] at hop

end CachePy

/-! ### Claim theorems -/

namespace CachePy

variable {K V : Type} [DecidableEq K]

/-- C2: for every `SizedHashmapCache` (BoundedMapCache) or `SizedLRUCache`
(LRUBoundedMapCache) with capacity `limit > 0` and an initial store of size at
most `limit`, the invariant `size(store) ≤ limit` holds after every finite
sequence of operations — in particular after any sequence of `insert` calls. -/
theorem C2_size_invariant (limit : Int) (s : Store K V) (ops : List (CacheOp K V))
    (hpos : 0 < limit) (hs : (s.length : Int) ≤ limit) :
    ((sizedRun limit ops s).length : Int) ≤ limit ∧
    ((lruRun limit ops s).length : Int) ≤ limit := by
  constructor
  · induction ops generalizing s with
    | nil => exact hs
    | cons op rest ih =>
        rw [sizedRun_cons]
        exact ih _ (sizedStep_length_le limit hpos s hs op)
  · induction ops generalizing s with
    | nil => exact hs
    | cons op rest ih =>
        rw [lruRun_cons]
        exact ih _ (lruStep_length_le limit hpos s hs op)

/-- Witness for C2 at capacity 2 with three inserts from the empty store. -/
theorem C2_size_invariant_witness :
    ((sizedRun 2 [CacheOp.insert 1 (some 1), CacheOp.insert 2 (some 2),
        CacheOp.insert 3 (some 3)] ([] : Store Nat Nat)).length : Int) ≤ 2 ∧
    ((lruRun 2 [CacheOp.insert 1 (some 1), CacheOp.insert 2 (some 2),
        CacheOp.insert 3 (some 3)] ([] : Store Nat Nat)).length : Int) ≤ 2 :=
  C2_size_invariant 2 [] [CacheOp.insert 1 (some 1), CacheOp.insert 2 (some 2),
    CacheOp.insert 3 (some 3)] (by decide) (by decide)

/-- C4: FIFO eviction in `SizedHashmapCache` — inserting the pairwise-distinct
keys `k0 :: rest` (capacity many) into an empty cache of capacity
`(k0 :: rest).length` and then one more distinct key `kC` leaves `check k0`
false, `check kC` true, and `check k` true for every other inserted key. -/
theorem C4_fifo_eviction (k0 kC : K) (rest : List K) (f : K → Option V)
    (vC : Option V) (hnd : (k0 :: rest).Nodup) (hkC : kC ∉ k0 :: rest) :
    HashmapCache.check (sizedRun (((k0 :: rest).length : Nat) : Int)
      (((k0 :: rest).map fun k => CacheOp.insert k (f k)) ++ [CacheOp.insert kC vC])
      ([] : Store K V)) k0 = false ∧
    HashmapCache.check (sizedRun (((k0 :: rest).length : Nat) : Int)
      (((k0 :: rest).map fun k => CacheOp.insert k (f k)) ++ [CacheOp.insert kC vC])
      ([] : Store K V)) kC = true ∧
    ∀ k ∈ rest, HashmapCache.check (sizedRun (((k0 :: rest).length : Nat) : Int)
      (((k0 :: rest).map fun k => CacheOp.insert k (f k)) ++ [CacheOp.insert kC vC])
      ([] : Store K V)) k = true := by
  have hfill := sizedRun_fill_fresh (((k0 :: rest).length : Nat) : Int)
    (k0 :: rest) f ([] : Store K V) (by intro k _; rfl) hnd (by simp)
  rw [sizedRun_append, hfill]
  rw [sizedRun_cons, sizedRun_nil]
  have hkC0 : kC ∉ rest := fun h => hkC (List.mem_cons_of_mem _ h)
  have hkCne : ¬ kC = k0 := fun h => hkC (by rw [h]; exact List.mem_cons_self _ _)
  have hk0rest : k0 ∉ rest := (List.nodup_cons.mp hnd).1
  have hstep : sizedStep (((k0 :: rest).length : Nat) : Int)
      (([] : Store K V) ++ (k0 :: rest).map fun k => (k, f k)) (CacheOp.insert kC vC)
      = (rest.map fun k => (k, f k)) ++ [(kC, vC)] := by
    simp only [sizedStep, SizedHashmapCache.insert, List.nil_append]
    rw [if_pos (by simp)]
    have ht : (((k0 :: rest).map fun k => (k, f k)) : Store K V).tail
        = rest.map fun k => (k, f k) := by simp
    rw [ht]
    exact HashmapCache.insert_of_fresh _ kC vC (check_map_pair_false rest f kC hkC0)
  rw [hstep]
  refine ⟨?_, ?_, ?_⟩
  · rw [HashmapCache.check_append]
    rw [check_map_pair_false rest f k0 hk0rest]
    simp [HashmapCache.check, hkCne]
  · rw [HashmapCache.check_append]
    simp [HashmapCache.check]
  · intro k hk
    rw [HashmapCache.check_append]
    rw [(check_map_pair rest f k).mpr hk]
    simp

/-- Witness for C4: capacity 3, keys 0,1,2 then 3; key 0 is evicted, 3 is
present, 1 and 2 remain. -/
theorem C4_fifo_eviction_witness :
    HashmapCache.check (sizedRun ((([0, 1, 2] : List Nat).length : Nat) : Int)
      ((([0, 1, 2] : List Nat).map fun k => CacheOp.insert k (some k))
        ++ [CacheOp.insert 3 (some 3)]) ([] : Store Nat Nat)) 0 = false ∧
    HashmapCache.check (sizedRun ((([0, 1, 2] : List Nat).length : Nat) : Int)
      ((([0, 1, 2] : List Nat).map fun k => CacheOp.insert k (some k))
        ++ [CacheOp.insert 3 (some 3)]) ([] : Store Nat Nat)) 3 = true ∧
    ∀ k ∈ ([1, 2] : List Nat),
      HashmapCache.check (sizedRun ((([0, 1, 2] : List Nat).length : Nat) : Int)
        ((([0, 1, 2] : List Nat).map fun k => CacheOp.insert k (some k))
          ++ [CacheOp.insert 3 (some 3)]) ([] : Store Nat Nat)) k = true :=
  C4_fifo_eviction 0 3 [1, 2] (fun k => some k) (some 3) (by decide) (by decide)

/-- C3: LRU promotion — fill a `SizedLRUCache` of capacity
`(k0 :: k1 :: rest).length` with the distinct keys `k0, k1, rest…` in order,
call `get k0`, then insert a fresh distinct key `kC`: `k0` was promoted and
survives (`check k0` true) while `k1` became the oldest entry and was evicted
(`check k1` false). -/
theorem C3_lru_promotion (k0 k1 kC : K) (rest : List K) (f : K → Option V)
    (vC : Option V) (hnd : (k0 :: k1 :: rest).Nodup)
    (hkC : kC ∉ k0 :: k1 :: rest) :
    HashmapCache.check (lruRun (((k0 :: k1 :: rest).length : Nat) : Int)
      (((k0 :: k1 :: rest).map fun k => CacheOp.insert k (f k))
        ++ [CacheOp.get k0, CacheOp.insert kC vC]) ([] : Store K V)) k0 = true ∧
    HashmapCache.check (lruRun (((k0 :: k1 :: rest).length : Nat) : Int)
      (((k0 :: k1 :: rest).map fun k => CacheOp.insert k (f k))
        ++ [CacheOp.get k0, CacheOp.insert kC vC]) ([] : Store K V)) k1 = false := by
  have h01 : ¬ k0 = k1 := by
    have hm := (List.nodup_cons.mp hnd).1
    intro h
    exact hm (by rw [h]; exact List.mem_cons_self _ _)
  have hnd1 := (List.nodup_cons.mp hnd).2
  have h1rest : k1 ∉ rest := (List.nodup_cons.mp hnd1).1
  have hkC0 : ¬ kC = k0 := fun h => hkC (by rw [h]; exact List.mem_cons_self _ _)
  have hkC1 : ¬ kC = k1 :=
    fun h => hkC (by rw [h]; exact List.mem_cons_of_mem _ (List.mem_cons_self _ _))
  have hkCrest : kC ∉ rest :=
    fun h => hkC (List.mem_cons_of_mem _ (List.mem_cons_of_mem _ h))
  have hfill := sizedRun_fill_fresh (((k0 :: k1 :: rest).length : Nat) : Int)
    (k0 :: k1 :: rest) f ([] : Store K V) (by intro k _; rfl) hnd (by simp)
  rw [lruRun_append, lruRun_insert_eq_sizedRun, hfill, List.nil_append,
    lruRun_cons]
  have hget : lruStep (((k0 :: k1 :: rest).length : Nat) : Int)
      ((k0 :: k1 :: rest).map fun k => (k, f k)) (CacheOp.get k0)
      = ((k1 :: rest).map fun k => (k, f k)) ++ [(k0, f k0)] := by
    simp [lruStep, SizedLRUCache.get, SizedLRUCache.move_to_end,
      HashmapCache.check, HashmapCache.lookup, HashmapCache.eraseKey]
  rw [hget, lruRun_cons, lruRun_nil]
  have hins : lruStep (((k0 :: k1 :: rest).length : Nat) : Int)
      (((k1 :: rest).map fun k => (k, f k)) ++ [(k0, f k0)]) (CacheOp.insert kC vC)
      = ((rest.map fun k => (k, f k)) ++ [(k0, f k0)]) ++ [(kC, vC)] := by
    simp only [lruStep, SizedHashmapCache.insert]
    have hlen1 : (((((k1 :: rest).map fun k => (k, f k)) ++ [(k0, f k0)]
        : Store K V)).length : Int) = (((k0 :: k1 :: rest).length : Nat) : Int) := by
      simp
    rw [if_pos hlen1]
    have htail : ((((k1 :: rest).map fun k => (k, f k)) ++ [(k0, f k0)])
        : Store K V).tail = (rest.map fun k => (k, f k)) ++ [(k0, f k0)] := by
      simp
    rw [htail]
    apply HashmapCache.insert_of_fresh
    rw [HashmapCache.check_append, check_map_pair_false rest f kC hkCrest]
    have h0C : ¬ k0 = kC := fun h => hkC0 h.symm
    simp [HashmapCache.check, h0C]
  rw [hins]
  constructor
  · simp [HashmapCache.check_append, HashmapCache.check]
  · rw [HashmapCache.check_append, HashmapCache.check_append,
      check_map_pair_false rest f k1 h1rest]
    simp [HashmapCache.check, h01, hkC1]

/-- Witness for C3: capacity 2 with keys 0 then 1; after `get 0` and
`insert 2`, key 0 survives and key 1 is evicted. -/
theorem C3_lru_promotion_witness :
    HashmapCache.check (lruRun ((([0, 1] : List Nat).length : Nat) : Int)
      ((([0, 1] : List Nat).map fun k => CacheOp.insert k (some k))
        ++ [CacheOp.get 0, CacheOp.insert 2 (some 2)]) ([] : Store Nat Nat)) 0
      = true ∧
    HashmapCache.check (lruRun ((([0, 1] : List Nat).length : Nat) : Int)
      ((([0, 1] : List Nat).map fun k => CacheOp.insert k (some k))
        ++ [CacheOp.get 0, CacheOp.insert 2 (some 2)]) ([] : Store Nat Nat)) 1
      = false :=
  C3_lru_promotion 0 1 2 [] (fun k => some k) (some 2) (by decide) (by decide)

/-- C1 counterexample: a `SizedHashmapCache` of capacity 2 holding keys 0 and
1 (exactly capacity-many entries); re-inserting the already-present key 1
with a new value does NOT overwrite in place — the eviction branch still
fires, key 0 is evicted and the size drops to 1, refuting "the store size
stays equal to capacity, every other key remains present". -/
theorem C1_overwrite_counterexample :
    HashmapCache.check ([(0, some 0), (1, some 1)] : Store Nat Nat) 1 = true ∧
    (([(0, some 0), (1, some 1)] : Store Nat Nat).length : Int) = 2 ∧
    SizedHashmapCache.insert 2 1 (some 5)
      ([(0, some 0), (1, some 1)] : Store Nat Nat) = [(1, some 5)] ∧
    (SizedHashmapCache.insert 2 1 (some 5)
      ([(0, some 0), (1, some 1)] : Store Nat Nat)).length ≠ 2 ∧
    HashmapCache.check (SizedHashmapCache.insert 2 1 (some 5)
      ([(0, some 0), (1, some 1)] : Store Nat Nat)) 0 = false := by
  decide

/-- C1 amended: in a `SizedHashmapCache` whose store holds exactly
capacity-many entries, `insert k v` with `k` already present still evicts the
oldest entry first.  `get k` afterwards returns the new value `v` in every
case; if `k` is itself the oldest entry the store is `t ++ [(k, v)]` (size
stays at capacity, `k` moves to the newest end); otherwise the oldest entry
`p` is evicted, the size drops by one to capacity − 1, `p.1` is no longer
present, and every key other than `p.1` keeps its presence status. -/
theorem C1_overwrite_at_capacity (limit : Int) (p : K × Option V)
    (t : Store K V) (k : K) (v : Option V)
    (hlen : (((p :: t : Store K V)).length : Int) = limit)
    (hnd : (keys ((p :: t) : Store K V)).Nodup)
    (hk : HashmapCache.check ((p :: t) : Store K V) k = true) :
    HashmapCache.get (SizedHashmapCache.insert limit k v ((p :: t) : Store K V)) k
      = v ∧
    (p.1 = k →
      SizedHashmapCache.insert limit k v ((p :: t) : Store K V) = t ++ [(k, v)]) ∧
    (p.1 ≠ k →
      (SizedHashmapCache.insert limit k v ((p :: t) : Store K V)).length + 1
        = ((p :: t) : Store K V).length ∧
      HashmapCache.check
        (SizedHashmapCache.insert limit k v ((p :: t) : Store K V)) p.1 = false ∧
      ∀ k', k' ≠ p.1 →
        HashmapCache.check
          (SizedHashmapCache.insert limit k v ((p :: t) : Store K V)) k'
          = HashmapCache.check ((p :: t) : Store K V) k') := by
  obtain ⟨k₀, v₀⟩ := p
  have hins : SizedHashmapCache.insert limit k v (((k₀, v₀) :: t) : Store K V)
      = HashmapCache.insert t k v := by
    simp only [SizedHashmapCache.insert, if_pos hlen, List.tail_cons]
  rw [hins]
  have hnd' : k₀ ∉ keys t ∧ (keys t).Nodup := by
    have hkc : keys (((k₀, v₀) :: t) : Store K V) = k₀ :: keys t := by simp [keys]
    rw [hkc] at hnd
    exact List.nodup_cons.mp hnd
  have hndt := hnd'.2
  have hk0t := hnd'.1
  refine ⟨HashmapCache.get_insert_self t k v, ?_, ?_⟩
  · intro hpk
    subst hpk
    have hfresh : HashmapCache.check t k₀ = false :=
      (HashmapCache.check_eq_false_iff t k₀).mpr hk0t
    exact HashmapCache.insert_of_fresh t k₀ v hfresh
  · intro hpk
    have hkt : HashmapCache.check t k = true := by
      simp only [HashmapCache.check] at hk
      rw [if_neg hpk] at hk
      exact hk
    have hkeys := HashmapCache.keys_insert_of_check t k v hkt
    refine ⟨?_, ?_, ?_⟩
    · rw [HashmapCache.length_insert_of_check t k v hkt]
      simp
    · rw [HashmapCache.check_eq_false_iff, hkeys]
      exact hk0t
    · intro k' hk'
      rw [check_eq_of_keys_eq _ t k' hkeys]
      simp only [HashmapCache.check]
      rw [if_neg (fun hh => hk' hh.symm)]

/-- Witness for the amended C1 at capacity 2, store `[(0, ↦0), (1, ↦1)]`,
re-inserting the non-oldest key 1 with value 5. -/
theorem C1_overwrite_at_capacity_witness :
    HashmapCache.get (SizedHashmapCache.insert 2 1 (some 5)
      (((0, some 0) :: [(1, some 1)]) : Store Nat Nat)) 1 = some 5 ∧
    (((0, some 0) : Nat × Option Nat).1 = 1 →
      SizedHashmapCache.insert 2 1 (some 5)
        (((0, some 0) :: [(1, some 1)]) : Store Nat Nat)
        = [(1, some 1)] ++ [(1, some 5)]) ∧
    (((0, some 0) : Nat × Option Nat).1 ≠ 1 →
      (SizedHashmapCache.insert 2 1 (some 5)
        (((0, some 0) :: [(1, some 1)]) : Store Nat Nat)).length + 1
        = (((0, some 0) :: [(1, some 1)]) : Store Nat Nat).length ∧
      HashmapCache.check (SizedHashmapCache.insert 2 1 (some 5)
        (((0, some 0) :: [(1, some 1)]) : Store Nat Nat)) 0 = false ∧
      ∀ k', k' ≠ 0 →
        HashmapCache.check (SizedHashmapCache.insert 2 1 (some 5)
          (((0, some 0) :: [(1, some 1)]) : Store Nat Nat)) k'
          = HashmapCache.check (((0, some 0) :: [(1, some 1)]) : Store Nat Nat) k') :=
  C1_overwrite_at_capacity 2 (0, some 0) [(1, some 1)] 1 (some 5)
    (by decide) (by decide) (by decide)

/-- C5 counterexample: in a `SizedLRUCache` of capacity 2 holding keys 0
(oldest) and 1, `insert` (inherited from `SizedHashmapCache`) on the present
key 0 DOES change 0's position: the eviction branch pops 0 and the dict
assignment re-adds it at the newest end, so the key order flips from
`[0, 1]` to `[1, 0]`; a subsequent fresh insert then evicts key 1, not key 0,
refuting "insert on a present key never changes its position". -/
theorem C5_insert_recency_counterexample :
    HashmapCache.check ([(0, some 0), (1, some 1)] : Store Nat Nat) 0 = true ∧
    keys ([(0, some 0), (1, some 1)] : Store Nat Nat) = [0, 1] ∧
    keys (SizedHashmapCache.insert 2 0 (some 5)
      ([(0, some 0), (1, some 1)] : Store Nat Nat)) = [1, 0] ∧
    HashmapCache.check (SizedHashmapCache.insert 2 2 (some 2)
      (SizedHashmapCache.insert 2 0 (some 5)
        ([(0, some 0), (1, some 1)] : Store Nat Nat))) 0 = true ∧
    HashmapCache.check (SizedHashmapCache.insert 2 2 (some 2)
      (SizedHashmapCache.insert 2 0 (some 5)
        ([(0, some 0), (1, some 1)] : Store Nat Nat))) 1 = false := by
  decide

/-- C5 amended: `insert k v` on a present key `k` keeps the eviction order
unchanged whenever the store size differs from the capacity; but when the
store is exactly at capacity, the oldest entry is popped first — in
particular if `k` itself is the oldest entry it is re-added at the newest
end, i.e. its recency IS refreshed in that one case.  A successful `get k`
always promotes `k` to the newest end. -/
theorem C5_insert_recency_amended (limit : Int) (s : Store K V) (k : K)
    (v : Option V) (hk : HashmapCache.check s k = true)
    (hnd : (keys s).Nodup) :
    ((s.length : Int) ≠ limit →
      keys (SizedHashmapCache.insert limit k v s) = keys s) ∧
    (∀ w t, s = (k, w) :: t → (s.length : Int) = limit →
      SizedHashmapCache.insert limit k v s = t ++ [(k, v)]) ∧
    (∀ p t, s = p :: t → p.1 ≠ k → (s.length : Int) = limit →
      keys (SizedHashmapCache.insert limit k v s) = keys t) ∧
    keys ((SizedLRUCache.get s k).2) = keys (HashmapCache.eraseKey s k) ++ [k] := by
  refine ⟨?_, ?_, ?_, ?_⟩
  · intro hne
    simp only [SizedHashmapCache.insert, if_neg hne]
    exact HashmapCache.keys_insert_of_check s k v hk
  · intro w t hs hlen
    subst hs
    simp only [SizedHashmapCache.insert, if_pos hlen, List.tail_cons]
    have hkt : k ∉ keys t := by
      have hkc : keys (((k, w) :: t) : Store K V) = k :: keys t := by simp [keys]
      rw [hkc] at hnd
      exact (List.nodup_cons.mp hnd).1
    exact HashmapCache.insert_of_fresh t k v
      ((HashmapCache.check_eq_false_iff t k).mpr hkt)
  · intro p t hs hpk hlen
    subst hs
    simp only [SizedHashmapCache.insert, if_pos hlen, List.tail_cons]
    have hkt : HashmapCache.check t k = true := by
      obtain ⟨k₀, v₀⟩ := p
      simp only [HashmapCache.check] at hk
      rw [if_neg hpk] at hk
      exact hk
    exact HashmapCache.keys_insert_of_check t k v hkt
  · have h1 : (HashmapCache.lookup s k).isSome = true := by
      rw [HashmapCache.lookup_isSome_eq_check, hk]
    obtain ⟨v₀, hv⟩ := Option.isSome_iff_exists.mp h1
    simp [SizedLRUCache.get, hk, SizedLRUCache.move_to_end, hv, keys_append, keys]

/-- Witness for the amended C5 at capacity 2 with store `[(0, ↦0), (1, ↦1)]`
and present key 0 (which is the oldest entry). -/
theorem C5_insert_recency_amended_witness :
    ((([(0, some 0), (1, some 1)] : Store Nat Nat).length : Int) ≠ 2 →
      keys (SizedHashmapCache.insert 2 0 (some 5)
        ([(0, some 0), (1, some 1)] : Store Nat Nat))
        = keys ([(0, some 0), (1, some 1)] : Store Nat Nat)) ∧
    (∀ w t, ([(0, some 0), (1, some 1)] : Store Nat Nat) = (0, w) :: t →
      ((([(0, some 0), (1, some 1)] : Store Nat Nat).length : Int) = 2) →
      SizedHashmapCache.insert 2 0 (some 5)
        ([(0, some 0), (1, some 1)] : Store Nat Nat) = t ++ [(0, some 5)]) ∧
    (∀ p t, ([(0, some 0), (1, some 1)] : Store Nat Nat) = p :: t → p.1 ≠ 0 →
      ((([(0, some 0), (1, some 1)] : Store Nat Nat).length : Int) = 2) →
      keys (SizedHashmapCache.insert 2 0 (some 5)
        ([(0, some 0), (1, some 1)] : Store Nat Nat)) = keys t) ∧
    keys ((SizedLRUCache.get ([(0, some 0), (1, some 1)] : Store Nat Nat) 0).2)
      = keys (HashmapCache.eraseKey
          ([(0, some 0), (1, some 1)] : Store Nat Nat) 0) ++ [0] :=
  C5_insert_recency_amended 2 ([(0, some 0), (1, some 1)] : Store Nat Nat) 0
    (some 5) (by decide) (by decide)

/-- C6: constructing a bounded cache (`SizedHashmapCache`, and
`SizedLRUCache` which inherits the constructor) with `limit ≤ 0` fails with
the configuration error and produces no instance; with any `limit > 0` it
succeeds and yields the instance carrying the limit and the seeded store. -/
theorem C6_construction (limit : Int) (store : Store K V) :
    (limit ≤ 0 →
      SizedHashmapCache.init limit store
        = Except.error "Limit must be greater than 0" ∧
      SizedLRUCache.init limit store
        = Except.error "Limit must be greater than 0") ∧
    (0 < limit →
      SizedHashmapCache.init limit store = Except.ok (limit, store) ∧
      SizedLRUCache.init limit store = Except.ok (limit, store)) := by
  constructor
  · intro h
    constructor <;> simp [SizedHashmapCache.init, SizedLRUCache.init, h]
  · intro h
    have h2 : ¬ limit ≤ 0 := by omega
    constructor <;> simp [SizedHashmapCache.init, SizedLRUCache.init, h2]

/-- Witness for C6: constructing with limit −1 fails and with limit 3
succeeds. -/
theorem C6_construction_witness :
    SizedHashmapCache.init (-1) ([] : Store Nat Nat)
      = Except.error "Limit must be greater than 0" ∧
    SizedHashmapCache.init 3 ([] : Store Nat Nat) = Except.ok (3, []) :=
  ⟨((C6_construction (-1) ([] : Store Nat Nat)).1 (by decide)).1,
   ((C6_construction 3 ([] : Store Nat Nat)).2 (by decide)).1⟩

/-- C7: in a plain `HashmapCache`, after `insert k v`, `get k` returns `v`
and keeps returning `v` across any interleaved sequence of `check` calls,
`get` calls, and `insert`/`remove` calls on keys other than `k`. -/
theorem C7_mapcache_frame (s : Store K V) (k : K) (v : Option V)
    (ops : List (CacheOp K V)) (h : ∀ op ∈ ops, avoidsKey k op = true) :
    HashmapCache.get (mapRun ops (HashmapCache.insert s k v)) k = v ∧
    HashmapCache.check (mapRun ops (HashmapCache.insert s k v)) k = true := by
  have h2 := lookup_mapRun_avoids k v ops h (HashmapCache.insert s k v)
    (HashmapCache.lookup_insert_self s k v)
  constructor
  · simp [HashmapCache.get, h2]
  · exact HashmapCache.check_of_lookup _ k v h2

/-- Witness for C7: insert key 0 value 7, then a check, a get, an insert on
key 1 and a remove of key 1; `get 0` still returns 7. -/
theorem C7_mapcache_frame_witness :
    HashmapCache.get (mapRun [CacheOp.check 0, CacheOp.get 0,
      CacheOp.insert 1 (some 2), CacheOp.remove 1]
      (HashmapCache.insert ([] : Store Nat Nat) 0 (some 7))) 0 = some 7 ∧
    HashmapCache.check (mapRun [CacheOp.check 0, CacheOp.get 0,
      CacheOp.insert 1 (some 2), CacheOp.remove 1]
      (HashmapCache.insert ([] : Store Nat Nat) 0 (some 7))) 0 = true :=
  C7_mapcache_frame [] 0 (some 7) [CacheOp.check 0, CacheOp.get 0,
    CacheOp.insert 1 (some 2), CacheOp.remove 1] (by decide)

/-- C8: if a `SizedHashmapCache` store is seeded with strictly more entries
than the limit, inserting a fresh key evicts nothing — the eviction test is a
strict equality `len(store) == limit` — so the new entry is appended, the
size grows by exactly one, and stays strictly above the limit. -/
theorem C8_over_capacity_insert (limit : Int) (s : Store K V) (k : K)
    (v : Option V) (hover : limit < (s.length : Int))
    (hfresh : HashmapCache.check s k = false) :
    SizedHashmapCache.insert limit k v s = s ++ [(k, v)] ∧
    (SizedHashmapCache.insert limit k v s).length = s.length + 1 ∧
    limit < ((SizedHashmapCache.insert limit k v s).length : Int) := by
  have hne : (s.length : Int) ≠ limit := by omega
  have h1 : SizedHashmapCache.insert limit k v s = s ++ [(k, v)] := by
    simp only [SizedHashmapCache.insert, if_neg hne]
    exact HashmapCache.insert_of_fresh s k v hfresh
  refine ⟨h1, ?_, ?_⟩
  · rw [h1]
    simp
  · rw [h1]
    simp
    omega

/-- Witness for C8: limit 1 with a seed store of 2 entries; inserting fresh
key 2 appends it, giving 3 entries, still above the limit. -/
theorem C8_over_capacity_insert_witness :
    SizedHashmapCache.insert 1 2 (some 2)
      ([(0, some 0), (1, some 1)] : Store Nat Nat)
      = [(0, some 0), (1, some 1)] ++ [(2, some 2)] ∧
    (SizedHashmapCache.insert 1 2 (some 2)
      ([(0, some 0), (1, some 1)] : Store Nat Nat)).length
      = ([(0, some 0), (1, some 1)] : Store Nat Nat).length + 1 ∧
    (1 : Int) < ((SizedHashmapCache.insert 1 2 (some 2)
      ([(0, some 0), (1, some 1)] : Store Nat Nat)).length : Int) :=
  C8_over_capacity_insert 1 ([(0, some 0), (1, some 1)] : Store Nat Nat) 2
    (some 2) (by decide) (by decide)

/-- C9: when key `k` is present with stored value `None`, `remove k` deletes
the entry yet returns `None`, and `get k` returns `None` — exactly the
results observed on an absent key `j`; this holds for `HashmapCache.remove`
(shared by the bounded variants) and for the dispatch through the LRU `get`
in `SizedLRUCache`. -/
theorem C9_stored_none_indistinguishable (s t : Store K V) (k j : K)
    (hk : HashmapCache.lookup s k = some none) (hnd : (keys s).Nodup)
    (hj : HashmapCache.check t j = false) :
    (HashmapCache.remove s k).1 = none ∧
    HashmapCache.check ((HashmapCache.remove s k).2) k = false ∧
    HashmapCache.get s k = none ∧
    (SizedLRUCache.remove s k).1 = none ∧
    HashmapCache.check ((SizedLRUCache.remove s k).2) k = false ∧
    (SizedLRUCache.get s k).1 = none ∧
    (HashmapCache.remove t j).1 = none ∧
    HashmapCache.get t j = none ∧
    (SizedLRUCache.get t j).1 = none ∧
    (SizedLRUCache.remove t j).1 = none := by
  have hc : HashmapCache.check s k = true := HashmapCache.check_of_lookup s k none hk
  have hget : HashmapCache.get s k = none := by simp [HashmapCache.get, hk]
  have hefresh : HashmapCache.check (HashmapCache.eraseKey s k) k = false :=
    HashmapCache.check_eraseKey_of_nodup s k hnd
  have hmove : SizedLRUCache.move_to_end s k
      = HashmapCache.eraseKey s k ++ [(k, none)] := by
    simp [SizedLRUCache.move_to_end, hk]
  have hlruerase : HashmapCache.eraseKey ((SizedLRUCache.get s k).2) k
      = HashmapCache.eraseKey s k := by
    simp only [SizedLRUCache.get, hc, if_true, hmove]
    rw [HashmapCache.eraseKey_append_of_fresh _ _ k hefresh]
    simp [HashmapCache.eraseKey]
  refine ⟨?_, ?_, hget, ?_, ?_, ?_, ?_, ?_, ?_, ?_⟩
  · simp [HashmapCache.remove, hc, hget]
  · simp [HashmapCache.remove, hc, hefresh]
  · simp [SizedLRUCache.remove, SizedLRUCache.get, hc, hget]
  · simp only [SizedLRUCache.remove, hc, if_true]
    rw [hlruerase]
    exact hefresh
  · simp [SizedLRUCache.get, hc, hget]
  · simp [HashmapCache.remove, hj]
  · exact HashmapCache.get_eq_none_of_check t j hj
  · simp [SizedLRUCache.get, hj]
  · simp [SizedLRUCache.remove, hj]

/-- Witness for C9: store `[(5, None)]` with key 5 stored as `None`, against
the empty store and absent key 0. -/
theorem C9_stored_none_indistinguishable_witness :
    (HashmapCache.remove ([(5, none)] : Store Nat Nat) 5).1 = none ∧
    HashmapCache.check ((HashmapCache.remove ([(5, none)] : Store Nat Nat) 5).2) 5
      = false ∧
    HashmapCache.get ([(5, none)] : Store Nat Nat) 5 = none ∧
    (SizedLRUCache.remove ([(5, none)] : Store Nat Nat) 5).1 = none ∧
    HashmapCache.check ((SizedLRUCache.remove ([(5, none)] : Store Nat Nat) 5).2) 5
      = false ∧
    (SizedLRUCache.get ([(5, none)] : Store Nat Nat) 5).1 = none ∧
    (HashmapCache.remove ([] : Store Nat Nat) 0).1 = none ∧
    HashmapCache.get ([] : Store Nat Nat) 0 = none ∧
    (SizedLRUCache.get ([] : Store Nat Nat) 0).1 = none ∧
    (SizedLRUCache.remove ([] : Store Nat Nat) 0).1 = none :=
  C9_stored_none_indistinguishable ([(5, none)] : Store Nat Nat)
    ([] : Store Nat Nat) 5 0 (by decide) (by decide) (by decide)

/-- C10: `clear` empties the store of every variant — `HashsetCache.clear`
and `HashmapCache.clear` (which `SizedHashmapCache` and `SizedLRUCache`
inherit, as the op-level steps show): afterwards `check` is false for every
key, a second `clear` leaves the store empty, and `iter` yields nothing. -/
theorem C10_clear_empties (limit : Int) (s : Store K V) (t : List K) (k j : K) :
    HashmapCache.check (HashmapCache.clear s) k = false ∧
    HashsetCache.check (HashsetCache.clear t) j = false ∧
    HashmapCache.clear (HashmapCache.clear s) = HashmapCache.clear s ∧
    HashsetCache.clear (HashsetCache.clear t) = HashsetCache.clear t ∧
    HashmapCache.iter (HashmapCache.clear s) = [] ∧
    HashsetCache.iter (HashsetCache.clear t) = [] ∧
    sizedStep limit s CacheOp.clear = HashmapCache.clear s ∧
    lruStep limit s CacheOp.clear = HashmapCache.clear s := by
  refine ⟨?_, ?_, rfl, rfl, rfl, rfl, rfl, rfl⟩
  · simp [HashmapCache.clear, HashmapCache.check]
  · simp [HashsetCache.clear, HashsetCache.check]

end CachePy
